import Mathlib

/-!
Shallow embedding of the RiskPipelineProject risk-computation core
(`var_utils.py`, `VaR.py`, `Clean_process.py`) and proofs about it.

Modelling conventions:
* pandas DataFrames become lists of records; rational numbers (`ℚ`) model
  float values held in columns, and `Option ℚ` models a float column cell
  that may be NaN (`none` = NaN / no value).  Real numbers (`ℝ`) appear
  only where the source takes a square root (`np.sqrt`, z-scores).
* `pd.Series.sum()` and `groupby(...).sum()` skip NaN entries
  (skipna=True default); this is modelled by `snaSum`, which sums the
  defined entries of a `List (Option ℚ)`.
* elementwise float arithmetic propagates NaN; this is modelled by the
  `nanAdd`/`nanMul`/`nanSum` operations on `Option ℚ`.
* dates are `Int` day numbers; a date column that may hold NaT is
  `Option Int` (`pd.to_datetime(..., errors="coerce")` followed by
  `dropna` is modelled by filtering on `Option.isSome`).
-/

namespace RiskPipeline

/-- Canonical instrument identity `(metal, maturity-month label, exchange)`,
the join key used for positions, quotes, covariance columns and weights. -/
structure InstrumentKey where
  metal : String
  maturity : String
  exchange : String
  deriving DecidableEq

/-- One position row after `transform_position`: instrument key fields, the
breakdown attribute `BUSINESS LINE`, and the signed mass volume `Net_Volume`. -/
structure Position where
  key : InstrumentKey
  businessLine : String
  netVolume : ℚ
  deriving DecidableEq

/-- A position row carrying the merged `QuoteValue` and `Price Date` columns
(`none` models a NaN cell produced by an unmatched left merge). -/
structure PricedPosition where
  pos : Position
  quote : Option ℚ
  priceDate : Option Int
  deriving DecidableEq

/-- One historical price row after `transform_prices`: instrument key fields,
`Price Date` (NaT-able), the mass-normalized `MTQuote` and the raw
`QuoteValue` (the column the outlier detector reads). -/
structure PriceRow where
  key : InstrumentKey
  date : Option Int
  quote : ℚ
  rawQuote : ℚ
  deriving DecidableEq

/-- Distinct elements of the second list that are not in `seen`, keeping
first occurrences in order of appearance. -/
def uniqueFirstAux {α : Type} [DecidableEq α] : List α → List α → List α
  | _, [] => []
  | seen, x :: xs =>
    if seen.any (fun y => decide (y = x)) then uniqueFirstAux seen xs
    else x :: uniqueFirstAux (x :: seen) xs

/-- List of the distinct elements of a list, keeping first occurrences in
order of appearance (pandas `Series.unique` / first-seen grouping order). -/
def uniqueFirst {α : Type} [DecidableEq α] (l : List α) : List α :=
  uniqueFirstAux [] l

/-- Sum of a float column, skipping NaN entries (pandas `Series.sum()` with
its default `skipna=True`; the sum of an all-NaN or empty column is 0 —
skipping an entry is the same as adding 0 for it). -/
def snaSum (l : List (Option ℚ)) : ℚ := (l.map (fun o => o.getD 0)).sum

/-- Elementwise float addition: NaN propagates. -/
def nanAdd : Option ℚ → Option ℚ → Option ℚ
  | some a, some b => some (a + b)
  | _, _ => none

/-- Elementwise float multiplication: NaN propagates (also through 0). -/
def nanMul : Option ℚ → Option ℚ → Option ℚ
  | some a, some b => some (a * b)
  | _, _ => none

/-- NaN-propagating sum of a list of float scalars (numpy reduction:
any NaN term poisons the result, unlike the pandas skipna column sum). -/
def nanSum (l : List (Option ℚ)) : Option ℚ := l.foldr nanAdd (some 0)

/-- Insertion of an element into a list sorted by `le` (used to model the
ascending sorts pandas performs; ties keep the incoming element later). -/
def insertAsc {α : Type} (le : α → α → Bool) (x : α) : List α → List α
  | [] => [x]
  | y :: ys => if le x y then x :: y :: ys else y :: insertAsc le x ys

/-- Ascending sort by `le` (models `sort_values` / `sort_index`). -/
def sortAsc {α : Type} (le : α → α → Bool) (l : List α) : List α :=
  l.foldr (insertAsc le) []

/-- The `signed_position_value` column of `compute_asset_weights`:
`Net_Volume * QuoteValue` (NaN when the quote is missing). -/
def signedValue (r : PricedPosition) : Option ℚ :=
  r.quote.map (fun q => r.pos.netVolume * q)

/-- Gross portfolio value: `df["signed_position_value"].abs().sum()`.
NaN rows are skipped by the pandas sum, so the result is always a number. -/
def grossValue (rows : List PricedPosition) : ℚ :=
  snaSum (rows.map (fun r => (signedValue r).map (fun v => |v|)))

/-- Message of the `ValueError` raised by `compute_asset_weights`. -/
def zeroGrossMsg : String :=
  "Total gross portfolio value is zero — cannot compute weights"

/-- Embedding of `var_utils.compute_asset_weights`: signed position values
are grouped by instrument key and normalized by the gross exposure; a gross
exposure of exactly zero raises `ValueError` (modelled as `Except.error`).
Group sums skip NaN values exactly as `groupby(...)["..."].sum()` does, and
`groupby` key order is modelled as order of first appearance (pandas sorts
group keys, which permutes the returned Series but changes no value). -/
def compute_asset_weights (rows : List PricedPosition) :
    Except String (List (InstrumentKey × ℚ)) :=
  let gross := grossValue rows
  if gross = 0 then .error zeroGrossMsg
  else .ok ((uniqueFirst (rows.map (fun r => r.pos.key))).map (fun k =>
    (k, snaSum ((rows.filter (fun r => decide (r.pos.key = k))).map signedValue)
          / gross)))

/-- Embedding of `var_utils.compute_portfolio_value`:
`(Net_Volume.abs() * QuoteValue).sum()` with the pandas skipna sum. -/
def compute_portfolio_value (rows : List PricedPosition) : ℚ :=
  snaSum (rows.map (fun r => r.quote.map (fun q => |r.pos.netVolume| * q)))

/-- Price rows whose `Price Date` parsed to a real date
(`pd.to_datetime(..., errors="coerce")` followed by `dropna`). -/
def validPriceRows (prices : List PriceRow) : List PriceRow :=
  prices.filter (fun r => r.date.isSome)

/-- The row selected for instrument `k` by
`prices.sort_values("PRICE_DATE").groupby(key).last()`: the matching valid
row with the greatest date; among equal dates the later-occurring row wins. -/
def latestQuoteFor (prices : List PriceRow) (k : InstrumentKey) : Option PriceRow :=
  (validPriceRows prices).foldl (fun acc r =>
    if r.key = k then
      match acc with
      | none => some r
      | some a => if a.date.getD 0 ≤ r.date.getD 0 then some r else some a
    else acc) none

/-- Embedding of `VaR.merge_latest_prices`: a left merge of the positions
with the per-instrument latest prices; since `groupby(...).last()` yields at
most one price row per key, each position yields exactly one output row, and
an unmatched position keeps NaN (`none`) in `QuoteValue` and `Price Date`. -/
def merge_latest_prices (ps : List Position) (prices : List PriceRow) :
    List PricedPosition :=
  ps.map (fun p =>
    match latestQuoteFor prices p.key with
    | some r => ⟨p, some r.quote, r.date⟩
    | none => ⟨p, none, none⟩)

/-- Price rows quoted exactly on day `d`
(`prices[prices["PRICE_DATE"] == target_date]`; NaT never equals a date). -/
def pricesOnDate (prices : List PriceRow) (d : Int) : List PriceRow :=
  prices.filter (fun r => decide (r.date = some d))

/-- Embedding of `var_utils.merge_prices_on_date`: a left merge of the
positions with the quotes of one exact date.  A pandas left merge emits one
output row per matching right-hand row, so a position whose key has several
quotes dated `d` is duplicated; an unmatched position keeps NaN (`none`). -/
def merge_prices_on_date (ps : List Position) (prices : List PriceRow)
    (d : Int) : List PricedPosition :=
  ps.flatMap (fun p =>
    match (pricesOnDate prices d).filter (fun r => decide (r.key = p.key)) with
    | [] => [⟨p, none, none⟩]
    | rows => rows.map (fun r => ⟨p, some r.quote, some d⟩))

/-- Maximum parsed price date (`prices["PRICE_DATE"].max()`); the default 0
for an empty panel is never used, because the windowed row set is then empty. -/
def maxPriceDate (prices : List PriceRow) : Int :=
  match (validPriceRows prices).filterMap (fun r => r.date) with
  | [] => 0
  | d :: ds => ds.foldl (fun a b => if a ≤ b then b else a) d

/-- The distinct dates iterated by `compute_portfolio_value_time_series`:
valid dates at or after `max(date) - lookback`, deduplicated and sorted. -/
def tsWindowDates (prices : List PriceRow) (lookback : Int) : List Int :=
  let start := maxPriceDate prices - lookback
  sortAsc (fun a b => decide (a ≤ b))
    (uniqueFirst
      (((validPriceRows prices).filter
          (fun r => decide (start ≤ r.date.getD 0))).filterMap (fun r => r.date)))

/-- The rows of the left merge of the positions with day `d` quotes performed
inside the loop of `compute_portfolio_value_time_series` (same pandas merge
semantics as `merge_prices_on_date`, keeping only the `QUOTE` column). -/
def dayMergedRows (ps : List Position) (prices : List PriceRow) (d : Int) :
    List (Position × Option ℚ) :=
  ps.flatMap (fun p =>
    match (pricesOnDate prices d).filter (fun r => decide (r.key = p.key)) with
    | [] => [(p, none)]
    | rows => rows.map (fun r => (p, some r.quote)))

/-- `merged["QUOTE"].isna().sum()` for day `d`. -/
def dayMissingCount (ps : List Position) (prices : List PriceRow) (d : Int) : ℕ :=
  (dayMergedRows ps prices d).countP (fun x => x.2.isNone)

/-- `(merged["Net_Volume"] * merged["QUOTE"]).sum()` for day `d`. -/
def dayPortfolioValue (ps : List Position) (prices : List PriceRow) (d : Int) : ℚ :=
  snaSum ((dayMergedRows ps prices d).map
    (fun x => x.2.map (fun q => x.1.netVolume * q)))

/-- Embedding of `var_utils.compute_portfolio_value_time_series`: for every
distinct valid date in the lookback window, the day's quotes are left-merged
onto the positions; a day with any missing quote is skipped entirely,
otherwise `(date, total mark-to-market value)` is emitted. -/
def compute_portfolio_value_time_series (ps : List Position)
    (prices : List PriceRow) (lookback : Int) : List (Int × ℚ) :=
  (tsWindowDates prices lookback).filterMap (fun d =>
    if dayMissingCount ps prices d > 0 then none
    else some (d, dayPortfolioValue ps prices d))

/-- The pandas `Series.quantile(q)` with its default linear interpolation on
the sorted values (defined for nonempty input; a negative index, which in
pandas only arises from an out-of-range `q` and raises, is clamped here). -/
def quantileLinear (l : List ℚ) (q : ℚ) : ℚ :=
  let s := sortAsc (fun a b => decide (a ≤ b)) l
  let n := s.length
  let h : ℚ := q * ((n : ℚ) - 1)
  let i : ℤ := ⌊h⌋
  let g : ℚ := h - (i : ℚ)
  let lo := s.getD i.toNat 0
  let hi := s.getD (i.toNat + 1) lo
  lo + g * (hi - lo)

/-- Embedding of `var_utils.compute_historical_var`: the reconstructed
portfolio-value series is sorted by date, day-over-day P&L differences are
taken (the first, undefined difference dropped), and VaR is the negated
`(1 - confidence)` quantile of the P&L.  The Python function returns
`float("nan")` (after printing a warning) when the series is empty or when
no P&L value remains; that float NaN result is modelled as `none`. -/
def compute_historical_var (ps : List Position) (prices : List PriceRow)
    (lookback : Int) (confidence : ℚ) : Option ℚ :=
  let ts := compute_portfolio_value_time_series ps prices lookback
  if ts.isEmpty then none
  else
    let sorted := sortAsc (fun a b => decide (a.1 ≤ b.1)) ts
    let pnl := List.zipWith (fun a b => b.2 - a.2) sorted.dropLast sorted.tail
    if pnl.isEmpty then none
    else some (-(quantileLinear pnl (1 - confidence)))

/-- The flat instrument identifier built by `compute_covariance_matrix`
(and rebuilt by `compute_parametric_var`): `metal_maturity_exchange`. -/
def instrumentName (k : InstrumentKey) : String :=
  k.metal ++ "_" ++ k.maturity ++ "_" ++ k.exchange

/-- Valid price rows inside the covariance lookback window
(`df[df["date"] >= max(date) - lookback]` after the dropna). -/
def covWindowRows (prices : List PriceRow) (lookback : Int) : List PriceRow :=
  let start := maxPriceDate prices - lookback
  (validPriceRows prices).filter (fun r => decide (start ≤ r.date.getD 0))

/-- Row index (sorted distinct dates) of the pivoted price matrix. -/
def covDates (prices : List PriceRow) (lookback : Int) : List Int :=
  sortAsc (fun a b => decide (a ≤ b))
    (uniqueFirst ((covWindowRows prices lookback).filterMap (fun r => r.date)))

/-- Column labels (sorted distinct instrument names) of the pivoted matrix. -/
def covCols (prices : List PriceRow) (lookback : Int) : List String :=
  sortAsc (fun a b => !(decide (b < a)))
    (uniqueFirst ((covWindowRows prices lookback).map
      (fun r => instrumentName r.key)))

/-- One cell of the pivoted price matrix: the quote of the (unique, thanks to
the pivot duplicate check) windowed row with this date and instrument. -/
def covCell (prices : List PriceRow) (lookback : Int) (d : Int) (c : String) :
    Option ℚ :=
  ((covWindowRows prices lookback).find?
    (fun r => decide (r.date = some d ∧ instrumentName r.key = c))).map
    (fun r => r.quote)

/-- Forward fill along a column (`pivoted.ffill()`), carrying the last
defined value downwards. -/
def ffillGo (carry : Option ℚ) : List (Option ℚ) → List (Option ℚ)
  | [] => []
  | v :: vs =>
    match v with
    | some q => some q :: ffillGo (some q) vs
    | none => carry :: ffillGo carry vs

/-- One forward-filled column of the pivoted price matrix. -/
def covColFF (prices : List PriceRow) (lookback : Int) (c : String) :
    List (Option ℚ) :=
  ffillGo none ((covDates prices lookback).map
    (fun d => covCell prices lookback d c))

/-- Indices of the pivot rows kept by `pivoted.dropna(axis=0)`: rows where
every column still holds a value after the forward fill. -/
def covKeptIdx (prices : List PriceRow) (lookback : Int) : List ℕ :=
  (List.range (covDates prices lookback).length).filter
    (fun i => (covCols prices lookback).all
      (fun c => ((covColFF prices lookback c).getD i none).isSome))

/-- Dates of the kept pivot rows (the usable dates of the estimator). -/
def covKeptDates (prices : List PriceRow) (lookback : Int) : List Int :=
  (covKeptIdx prices lookback).map (fun i => (covDates prices lookback).getD i 0)

/-- One column of the price matrix restricted to the kept rows. -/
def covPriceCol (prices : List PriceRow) (lookback : Int) (c : String) :
    List ℚ :=
  (covKeptIdx prices lookback).map
    (fun i => ((covColFF prices lookback c).getD i none).getD 0)

/-- One column of simple daily returns
(`pivoted.pct_change()` with the first, undefined row dropped). -/
def covReturnCol (prices : List PriceRow) (lookback : Int) (c : String) :
    List ℚ :=
  List.zipWith (fun a b => b / a - 1)
    (covPriceCol prices lookback c).dropLast (covPriceCol prices lookback c).tail

/-- Number of return observations available to the covariance estimator. -/
def covN (prices : List PriceRow) (lookback : Int) : ℕ :=
  (covKeptIdx prices lookback).length - 1

/-- Mean of a list of rationals (pandas column mean). -/
def listMean (l : List ℚ) : ℚ := l.sum / (l.length : ℚ)

/-- Sample covariance (`ddof = 1`, the pandas `DataFrame.cov` default) of
two equal-length observation lists. -/
def sampleCov (xs ys : List ℚ) : ℚ :=
  ((List.zipWith (fun a b => (a - listMean xs) * (b - listMean ys)) xs ys).sum)
    / ((xs.length : ℚ) - 1)

/-- The covariance matrix returned by the estimator: its (sorted) instrument
labels and an entry function.  `none` entries model the NaN cells pandas
produces when fewer than 2 return observations exist. -/
structure CovMatrix where
  cols : List String
  entry : String → String → Option ℚ

/-- Message of the `ValueError` raised by `DataFrame.pivot` on duplicate
(date, instrument) pairs. -/
def pivotDupMsg : String :=
  "Index contains duplicate entries, cannot reshape"

/-- Embedding of `var_utils.compute_covariance_matrix`: clean and window the
price panel, pivot it into a date-by-instrument matrix (raising on duplicate
(date, instrument) pairs exactly as `DataFrame.pivot` does), forward-fill,
drop incomplete rows, take daily percentage returns and return their sample
covariance matrix; with fewer than 2 return rows every entry is NaN. -/
def compute_covariance_matrix (prices : List PriceRow) (lookback : Int) :
    Except String CovMatrix :=
  if ((covWindowRows prices lookback).map
      (fun r => (r.date.getD 0, instrumentName r.key))).Nodup then
    .ok ⟨covCols prices lookback, fun i j =>
      if 2 ≤ covN prices lookback then
        some (sampleCov (covReturnCol prices lookback i)
                        (covReturnCol prices lookback j))
      else none⟩
  else .error pivotDupMsg

/-- Index label of a pandas Series of weights: `compute_asset_weights`
produces tuple labels (instrument keys); `compute_parametric_var` rewrites
them in place into flat `metal_maturity_exchange` strings. -/
abbrev SKey : Type := InstrumentKey ⊕ String

/-- The flat string `compute_parametric_var` writes for an index label.
The source destructures each label as a `(metal, maturity, exchange)` tuple;
a label that is already a flat string (only possible if the mutated Series
were passed in again, which the pipeline never does) is kept as itself. -/
def skeyName : SKey → String
  | .inl k => instrumentName k
  | .inr s => s

/-- Look up a weight by flat instrument label (`Series.reindex` on a
uniquely-labelled index is label lookup). -/
def lookupWeight (l : List (SKey × ℚ)) (c : String) : Option ℚ :=
  (l.find? (fun kv => decide (kv.1 = Sum.inr c))).map (fun kv => kv.2)

/-- The in-place index reassignment performed by the first statement of
`compute_parametric_var`
(`weights.index = [f"{metal}_{maturity}_{exchange}" for ... in weights.index]`). -/
def renameWeights (weights : List (SKey × ℚ)) : List (SKey × ℚ) :=
  weights.map (fun kv => (Sum.inr (skeyName kv.1), kv.2))

/-- `weights.reindex(cov_matrix.columns).fillna(0).values`: one weight per
covariance column, looked up by flat label, 0 when the label is absent. -/
def reindexW (renamed : List (SKey × ℚ)) (cols : List String) : List ℚ :=
  cols.map (fun c => (lookupWeight renamed c).getD 0)

/-- The row vector `w.T @ cov_matrix.values` (NaN-propagating float dot
products, one per covariance column). -/
def wTcovVec (cov : CovMatrix) (w : List ℚ) : List (Option ℚ) :=
  cov.cols.map (fun j =>
    nanSum ((cov.cols.zip w).map (fun iw => nanMul (some iw.2) (cov.entry iw.1 j))))

/-- The scalar `(w.T @ cov_matrix.values @ w).item()` (NaN-propagating). -/
def quadForm (cov : CovMatrix) (w : List ℚ) : Option ℚ :=
  nanSum (((wTcovVec cov w).zip w).map (fun vw => nanMul vw.1 (some vw.2)))

/-- Written from the spec's formula `wᵗ · Σ · w`: the plain rational
quadratic form of a weight vector against the covariance entries, to be
compared with the NaN-propagating two-step product the source computes
(`.getD 0` reads an entry; the refinement theorem assumes all entries are
defined numbers). -/
def quadFormSpec (cov : CovMatrix) (w : List ℚ) : ℚ :=
  ((cov.cols.zip w).map (fun iw =>
    iw.2 * ((cov.cols.zip w).map
      (fun jw => ((cov.entry iw.1 jw.1).getD 0) * jw.2)).sum)).sum

/-- Embedding of `var_utils.compute_parametric_var`.  The function first
reassigns `weights.index` in place (the caller's Series is mutated), then
reindexes the weights onto the covariance columns with `fillna(0)`, and
returns `portfolio_value * (z * sqrt(w.T @ cov @ w))`.  The result is the
pair (returned float, final state of the `weights` argument); the float is
`none` (NaN) whenever a NaN covariance entry poisons the quadratic form. -/
noncomputable def compute_parametric_var (weights : List (SKey × ℚ)) (cov : CovMatrix)
    (z : ℝ) (portfolio_value : ℚ) : Option ℝ × List (SKey × ℚ) :=
  (match quadForm cov (reindexW (renameWeights weights) cov.cols) with
    | none => none
    | some q => some ((portfolio_value : ℝ) * (z * Real.sqrt ((q : ℚ) : ℝ))),
    renameWeights weights)

/-- Embedding of `var_utils.compute_z_score`; `scipy.stats.norm.ppf` is
external library code, passed in here as the function `ppf`. -/
def compute_z_score (ppf : ℝ → ℝ) (confidence_level : ℝ) : ℝ :=
  ppf confidence_level

/-- Embedding of `var_utils.calculate_parametric_var`: z-score, covariance
matrix (whose pivot may raise), portfolio value, weights (which raise at
zero gross exposure), then the parametric VaR formula, in source order. -/
noncomputable def calculate_parametric_var (ppf : ℝ → ℝ) (positions : List PricedPosition)
    (prices : List PriceRow) (confidence : ℝ) (lookback : Int) :
    Except String (Option ℝ) :=
  let z := compute_z_score ppf confidence
  match compute_covariance_matrix prices lookback with
  | .error e => .error e
  | .ok cov =>
    let pv := compute_portfolio_value positions
    match compute_asset_weights positions with
    | .error e => .error e
    | .ok ws =>
      .ok (compute_parametric_var (ws.map (fun kv => (Sum.inl kv.1, kv.2)))
            cov z pv).1

/-- Python `round(x, 2)` on the final VaR (round-half-even at exact
half-cents is approximated by Mathlib's `round`; no claim depends on it). -/
noncomputable def round2 (x : ℝ) : ℝ := (round (x * 100) : ℤ) / 100

/-- Embedding of `VaR.calculate_VaR_from_portfolio`: merge the latest quotes
into the positions, restrict the price panel to instruments present in the
book, run the parametric pipeline and round to 2 decimals. -/
noncomputable def calculate_VaR_from_portfolio (ppf : ℝ → ℝ) (ps : List Position)
    (prices : List PriceRow) (conf : ℝ) (lookback : Int) :
    Except String (Option ℝ) :=
  let merged := merge_latest_prices ps prices
  let filtered := prices.filter (fun r => ps.any (fun p => decide (p.key = r.key)))
  match calculate_parametric_var ppf merged filtered conf lookback with
  | .error e => .error e
  | .ok v => .ok (v.map round2)

/-- Columns of the transformed positions DataFrame (used by the
`level not in positions_df.columns` check of the aggregator). -/
def positionColumns : List String :=
  ["MATURITY", "CONTRACTTYPE", "BUSINESS LINE", "STRATEGY", "METAL",
   "EXCHANGE", "CURRENCY", "LONGSHORT", "VOLUME", "UNIT", "business_line",
   "MT_Volume", "Net_Volume", "MaturityMonth"]

/-- Value of a breakdown column for one position row (only the columns the
aggregator is ever invoked with carry data in this model). -/
def attrOf (p : Position) (level : String) : String :=
  if level = "BUSINESS LINE" then p.businessLine
  else if level = "METAL" then p.key.metal
  else if level = "EXCHANGE" then p.key.exchange
  else if level = "MaturityMonth" then p.key.maturity
  else ""

/-- `list(positions_df[level].unique())`. -/
def elementsOf (ps : List Position) (level : String) : List String :=
  uniqueFirst (ps.map (fun p => attrOf p level))

/-- `positions_df[positions_df[level] == el]`. -/
def subPositions (ps : List Position) (level : String) (el : String) :
    List Position :=
  ps.filter (fun p => decide (attrOf p level = el))

/-- The inner per-partition loop of `VaR.calculate_VaR` for one breakdown
level.  The whole loop runs inside a single `try`, so the first partition
whose VaR computation raises aborts the loop; entries already written into
`VaR_Levels[level]` survive. -/
def runLevelGo {α : Type} (f : List Position → Except String α)
    (ps : List Position) (level : String) : List String → List (String × α)
  | [] => []
  | e :: es =>
    match f (subPositions ps level e) with
    | .ok v => (e, v) :: runLevelGo f ps level es
    | .error _ => []

/-- The dictionary built for one breakdown level by `VaR.calculate_VaR`. -/
def runLevel {α : Type} (f : List Position → Except String α)
    (ps : List Position) (level : String) : List (String × α) :=
  runLevelGo f ps level (elementsOf ps level)

/-- Embedding of the control flow of `VaR.calculate_VaR` (and, with the
historical per-portfolio function, of `VaR.calculate_historical_VaR`): for
each requested level, `"Total"` runs `f` on the whole book (the sentinel
string `"error"` kept on failure is modelled as `none`), an unknown column
is skipped, and any other level runs the per-partition loop `runLevel`.
`f` is the per-portfolio computation (`calculate_VaR_from_portfolio(...)`
together with its `* T ** 0.5` horizon scaling, or
`compute_historical_var(...)`). -/
def calculate_VaR {α : Type} (f : List Position → Except String α)
    (ps : List Position) (levels : List String) :
    Option α × List (String × List (String × α)) :=
  levels.foldl (fun acc level =>
    if level = "Total" then
      match f ps with
      | .ok v => (some v, acc.2)
      | .error _ => (acc.1, acc.2)
    else if level ∈ positionColumns then
      (acc.1, acc.2 ++ [(level, runLevel f ps level)])
    else acc) (none, [])

/-- Population mean of the `QuoteValue` entries of one instrument group of
the outlier detector. -/
def groupRows (rows : List PriceRow) (k : InstrumentKey) : List PriceRow :=
  rows.filter (fun r => decide (r.key = k))

/-- Group mean used by `detect_outliers_zscore` (`prices.mean()`). -/
def groupMean (rows : List PriceRow) (k : InstrumentKey) : ℚ :=
  listMean ((groupRows rows k).map (fun r => r.rawQuote))

/-- Population variance (`ddof = 0`) of one instrument group's quotes. -/
def groupVar (rows : List PriceRow) (k : InstrumentKey) : ℚ :=
  let vals := (groupRows rows k).map (fun r => r.rawQuote)
  ((vals.map (fun x => (x - listMean vals) * (x - listMean vals))).sum)
    / ((vals.length : ℚ))

/-- The within-group z-score `(x - mean) / std(ddof=0)` of one price row.
The standard deviation is a real square root; like float division by the
zero standard deviation (which yields NaN and never flags), real division
by zero yields a non-flagging value (0). -/
noncomputable def zscoreOf (rows : List PriceRow) (r : PriceRow) : ℝ :=
  ((r.rawQuote - groupMean rows r.key : ℚ) : ℝ)
    / Real.sqrt ((groupVar rows r.key : ℚ) : ℝ)

open Classical in
/-- Embedding of `Clean_process.detect_outliers_zscore`: each row is flagged
when the absolute within-group z-score of its `QuoteValue` exceeds the
threshold, and the function returns the number of flagged rows. -/
noncomputable def detect_outliers_zscore (rows : List PriceRow) (threshold : ℚ) : ℕ :=
  (rows.map (fun r => if (threshold : ℝ) < |zscoreOf rows r| then 1 else 0)).sum

open Classical in
/-- Number of flagged rows contributed by one instrument group. -/
noncomputable def groupOutlierCount (rows : List PriceRow) (k : InstrumentKey)
    (threshold : ℚ) : ℕ :=
  ((groupRows rows k).map
    (fun r => if (threshold : ℝ) < |zscoreOf rows r| then 1 else 0)).sum

/-- Sum of the absolute weights of a weight Series (the quantity the
`sum(|weight|) == 1` invariant speaks about). -/
def sumAbsWeights (ws : List (InstrumentKey × ℚ)) : ℚ :=
  (ws.map (fun kv => |kv.2|)).sum

/-- A book of one long and one exactly offsetting short of the same
instrument and equal value (the spec's "Scenario B" input). -/
def offsetBook : List PricedPosition :=
  [⟨⟨⟨"Copper", "Oct-2024", "LME"⟩, "Prop", 1⟩, some 100, some 5⟩,
   ⟨⟨⟨"Copper", "Oct-2024", "LME"⟩, "Prop", -1⟩, some 100, some 5⟩]

/-- A two-position book on two distinct instruments. -/
def twoKeyBook : List PricedPosition :=
  [⟨⟨⟨"Copper", "Oct-2024", "LME"⟩, "Prop", 1⟩, some 100, some 5⟩,
   ⟨⟨⟨"Zinc", "Nov-2024", "LME"⟩, "Metals", -1⟩, some 300, some 5⟩]

/-- A well-formed two-instrument, three-date price panel. -/
def covPanel : List PriceRow :=
  [⟨⟨"Alum", "Jan-2025", "LME"⟩, some 1, 100, 100⟩,
   ⟨⟨"Zinc", "Jan-2025", "LME"⟩, some 1, 50, 50⟩,
   ⟨⟨"Alum", "Jan-2025", "LME"⟩, some 2, 110, 110⟩,
   ⟨⟨"Zinc", "Jan-2025", "LME"⟩, some 2, 55, 55⟩,
   ⟨⟨"Alum", "Jan-2025", "LME"⟩, some 3, 105, 105⟩,
   ⟨⟨"Zinc", "Jan-2025", "LME"⟩, some 3, 52, 52⟩]

/-- The covariance matrix the estimator returns on `covPanel`. -/
def covPanelMatrix : CovMatrix :=
  match compute_covariance_matrix covPanel 365 with
  | .ok M => M
  | .error _ => ⟨[], fun _ _ => none⟩

/-- A price panel with a single usable date (insufficient history). -/
def thinPanel : List PriceRow :=
  [⟨⟨"Alum", "Jan-2025", "LME"⟩, some 1, 100, 100⟩]

/-- A one-instrument weight Series with a tuple-keyed index, as produced by
`compute_asset_weights`. -/
def c1weights : List (SKey × ℚ) :=
  [(Sum.inl ⟨"Copper", "Oct-2024", "LME"⟩, 1)]

/-- A one-column covariance matrix all of whose entries are defined. -/
def c1cov : CovMatrix :=
  ⟨["Copper_Oct-2024_LME"], fun _ _ => some (1 / 100)⟩

/-- A book of one Copper position. -/
def c6pos : List Position :=
  [⟨⟨"Copper", "Oct-2024", "LME"⟩, "Prop", 1⟩]

/-- A panel with one Copper quote on day 5. -/
def c6panel : List PriceRow :=
  [⟨⟨"Copper", "Oct-2024", "LME"⟩, some 5, 10, 10⟩]

/-- A degenerate panel carrying two Copper quotes on the same day 5. -/
def dupDayPanel : List PriceRow :=
  [⟨⟨"Copper", "Oct-2024", "LME"⟩, some 5, 10, 10⟩,
   ⟨⟨"Copper", "Oct-2024", "LME"⟩, some 5, 20, 20⟩]

/-- The string "error" sentinel kept in `VaR_Total` when the total-level
computation raises, modelled as `none`; a successful run stores the value. -/
def exceptToOption {α : Type} : Except String α → Option α
  | .ok v => some v
  | .error _ => none

/-- A three-business-line book: line "A" holds Copper, line "B" holds Gold
(an instrument with no quotes at all), line "C" holds Zinc. -/
def c5book : List Position :=
  [⟨⟨"Copper", "Oct-2024", "LME"⟩, "A", 1⟩,
   ⟨⟨"Gold", "Jan-2025", "NYM"⟩, "B", 1⟩,
   ⟨⟨"Zinc", "Nov-2024", "LME"⟩, "C", 2⟩]

/-- Three days of Copper and Zinc quotes; Gold is never quoted. -/
def c5panel : List PriceRow :=
  [⟨⟨"Copper", "Oct-2024", "LME"⟩, some 1, 100, 100⟩,
   ⟨⟨"Zinc", "Nov-2024", "LME"⟩, some 1, 50, 50⟩,
   ⟨⟨"Copper", "Oct-2024", "LME"⟩, some 2, 110, 110⟩,
   ⟨⟨"Zinc", "Nov-2024", "LME"⟩, some 2, 55, 55⟩,
   ⟨⟨"Copper", "Oct-2024", "LME"⟩, some 3, 105, 105⟩,
   ⟨⟨"Zinc", "Nov-2024", "LME"⟩, some 3, 52, 52⟩]

/-- A constant inverse-CDF standing in for `scipy.stats.norm.ppf`
(`Φ⁻¹(0.99) ≈ 2.33`); the aggregator's control flow never inspects it. -/
noncomputable def ppfConst : ℝ → ℝ := fun _ => 233 / 100

/-- The concrete per-portfolio computation the parametric aggregator runs:
`calculate_VaR_from_portfolio` against `c5panel`. -/
noncomputable def c5fReal (sub : List Position) : Except String (Option ℝ) :=
  calculate_VaR_from_portfolio ppfConst sub c5panel (99 / 100) 365

/-- The covariance matrix the estimator returns on `thinPanel`. -/
def thinPanelMatrix : CovMatrix :=
  match compute_covariance_matrix thinPanel 365 with
  | .ok M => M
  | .error _ => ⟨[], fun _ _ => none⟩

/-!
### Helper lemmas
-/

theorem snaSum_nil : snaSum [] = 0 := rfl

theorem snaSum_cons (o : Option ℚ) (l : List (Option ℚ)) :
    snaSum (o :: l) = o.getD 0 + snaSum l := by
  cases o <;> simp [snaSum]

theorem snaSum_singleton (o : Option ℚ) : snaSum [o] = o.getD 0 := by
  rw [snaSum_cons, snaSum_nil, add_zero]

theorem snaSum_nonneg {l : List (Option ℚ)} (h : ∀ o ∈ l, 0 ≤ o.getD 0) :
    0 ≤ snaSum l := by
  induction l with
  | nil => exact le_refl 0
  | cons o t ih =>
    rw [snaSum_cons]
    have h1 := h o (List.mem_cons_self o t)
    have h2 := ih (fun x hx => h x (List.mem_cons_of_mem o hx))
    linarith

theorem grossValue_nonneg (rows : List PricedPosition) : 0 ≤ grossValue rows := by
  apply snaSum_nonneg
  intro o ho
  rcases List.mem_map.mp ho with ⟨r, _, rfl⟩
  cases h : signedValue r with
  | none => simp
  | some v => simp [abs_nonneg]

theorem uniqueFirstAux_eq_self {α : Type} [DecidableEq α] :
    ∀ (l seen : List α), l.Nodup →
      (∀ x ∈ l, seen.any (fun y => decide (y = x)) = false) →
      uniqueFirstAux seen l = l := by
  intro l
  induction l with
  | nil => intro seen _ _; rfl
  | cons x xs ih =>
    intro seen hnd hseen
    rw [uniqueFirstAux, hseen x (List.mem_cons_self x xs)]
    simp only [Bool.false_eq_true, if_false]
    have hx : x ∉ xs := (List.nodup_cons.mp hnd).1
    apply congrArg (x :: ·)
    apply ih (x :: seen) (List.nodup_cons.mp hnd).2
    intro y hy
    rw [List.any_cons]
    have h1 : decide (x = y) = false := by
      simp only [decide_eq_false_iff_not]
      intro hc
      exact hx (hc ▸ hy)
    rw [h1, hseen y (List.mem_cons_of_mem x hy)]
    rfl

theorem uniqueFirst_eq_self {α : Type} [DecidableEq α] :
    ∀ {l : List α}, l.Nodup → uniqueFirst l = l := by
  intro l h
  exact uniqueFirstAux_eq_self l [] h (fun x _ => rfl)

theorem list_sum_map_div {α : Type} (l : List α) (f : α → ℚ) (g : ℚ) :
    (l.map (fun a => f a / g)).sum = (l.map f).sum / g := by
  induction l with
  | nil => simp
  | cons a t ih => simp [ih, add_div]

theorem filter_key_eq_singleton {α κ : Type} [DecidableEq κ] (key : α → κ) :
    ∀ (rows : List α), (rows.map key).Nodup →
      ∀ a ∈ rows, rows.filter (fun b => decide (key b = key a)) = [a] := by
  intro rows
  induction rows with
  | nil => intro _ a ha; exact absurd ha (List.not_mem_nil a)
  | cons r rest ih =>
    intro h a ha
    have hmap := h
    rw [List.map_cons, List.nodup_cons] at hmap
    rcases List.mem_cons.mp ha with rfl | hrest
    · have hnone : rest.filter (fun b => decide (key b = key a)) = [] := by
        apply List.filter_eq_nil_iff.mpr
        intro b hb
        simp only [decide_eq_true_eq]
        intro hkey
        exact hmap.1 (hkey ▸ List.mem_map_of_mem key hb)
      simp [List.filter_cons, hnone]
    · have hne : ¬ (key r = key a) := by
        intro hkey
        exact hmap.1 (hkey ▸ List.mem_map_of_mem key hrest)
      rw [List.filter_cons]
      simp only [decide_eq_true_eq]
      rw [if_neg hne]
      exact ih hmap.2 a hrest

/-!
### Claim C8 (weight calculator raises exactly at zero gross exposure)
-/

/-- Claim C8, amended: `compute_asset_weights` reports the zero-exposure
domain error exactly when the gross exposure (the skipna sum of absolute
signed position values) is exactly zero, and raises nothing else on any
other input.  (The claim's illustrating example is corrected separately:
an offsetting long/short pair has positive gross exposure.) -/
theorem claim_C8_zero_exposure (rows : List PricedPosition) :
    (compute_asset_weights rows = Except.error zeroGrossMsg ↔ grossValue rows = 0)
    ∧ (∀ e, compute_asset_weights rows = Except.error e → e = zeroGrossMsg) := by
  unfold compute_asset_weights
  by_cases h : grossValue rows = 0 <;> simp [h]

/-- Claim C8, counterexample to the claim's example: one long and one
exactly offsetting short of equal value yield gross exposure 200, not 0,
and the weight calculator returns weights (the lone instrument nets to
weight 0) instead of reporting ZeroExposure. -/
theorem claim_C8_counterexample :
    grossValue offsetBook = 200 ∧
    compute_asset_weights offsetBook =
      Except.ok [(⟨"Copper", "Oct-2024", "LME"⟩, 0)] := by
  constructor
  · simp [grossValue, snaSum, signedValue, offsetBook] <;> norm_num
  · simp [compute_asset_weights, grossValue, snaSum, signedValue,
      offsetBook, uniqueFirst, uniqueFirstAux, Function.comp] <;> norm_num

/-!
### Claim C2 (sum of absolute weights equals 1)
-/

/-- Claim C2, counterexample: a book with gross exposure 200 > 0 whose two
positions share one instrument key and net to zero; the returned weight
vector sums to 0 in absolute value, far outside the 1e-9 tolerance of 1. -/
theorem claim_C2_counterexample :
    grossValue offsetBook > 0 ∧
    compute_asset_weights offsetBook =
      Except.ok [(⟨"Copper", "Oct-2024", "LME"⟩, 0)] ∧
    |sumAbsWeights [(⟨"Copper", "Oct-2024", "LME"⟩, 0)] - 1| > 1 / 1000000000 := by
  refine ⟨?_, ?_, ?_⟩
  · simp [grossValue, snaSum, signedValue, offsetBook] <;> norm_num
  · simp [compute_asset_weights, grossValue, snaSum, signedValue,
      offsetBook, uniqueFirst, uniqueFirstAux, Function.comp] <;> norm_num
  · norm_num [sumAbsWeights]

/-- Claim C2, amended: when no instrument key is shared by two position rows
(so no intra-key netting can occur) and the weight calculator succeeds
(gross exposure nonzero), the sum of absolute weights is exactly 1. -/
theorem claim_C2_amended (rows : List PricedPosition)
    (ws : List (InstrumentKey × ℚ))
    (hkeys : (rows.map (fun r => r.pos.key)).Nodup)
    (hok : compute_asset_weights rows = Except.ok ws) :
    sumAbsWeights ws = 1 := by
  unfold compute_asset_weights at hok
  by_cases hg : grossValue rows = 0
  · simp [hg] at hok
  · simp only [hg, if_neg, not_false_iff, Except.ok.injEq] at hok
    have hgpos : 0 < grossValue rows :=
      lt_of_le_of_ne (grossValue_nonneg rows) (Ne.symm hg)
    subst hok
    unfold sumAbsWeights
    rw [uniqueFirst_eq_self hkeys, List.map_map, List.map_map]
    have hpt : ∀ r ∈ rows,
        (((fun kv : InstrumentKey × ℚ => |kv.2|) ∘
          (fun k => (k,
            snaSum ((rows.filter (fun r => decide (r.pos.key = k))).map signedValue)
              / grossValue rows))) ∘ (fun r => r.pos.key)) r
        = ((signedValue r).map (fun v => |v|)).getD 0 / grossValue rows := by
      intro r hr
      simp only [Function.comp_apply]
      rw [filter_key_eq_singleton (fun r => r.pos.key) rows hkeys r hr]
      rw [List.map_cons, List.map_nil, snaSum_singleton, abs_div,
        abs_of_pos hgpos]
      cases signedValue r <;> simp
    rw [List.map_congr_left hpt, list_sum_map_div]
    have hgross : (rows.map (fun r =>
        ((signedValue r).map (fun v => |v|)).getD 0)).sum = grossValue rows := by
      unfold grossValue snaSum
      rw [List.map_map]
      rfl
    rw [hgross, div_self (ne_of_gt hgpos)]

/-- Witness for `claim_C2_amended` at a concrete two-instrument book. -/
theorem claim_C2_amended_witness :
    ((twoKeyBook.map (fun r => r.pos.key)).Nodup ∧
      compute_asset_weights twoKeyBook =
        Except.ok [(⟨"Copper", "Oct-2024", "LME"⟩, 1/4),
                   (⟨"Zinc", "Nov-2024", "LME"⟩, -(3/4))]) ∧
    sumAbsWeights [(⟨"Copper", "Oct-2024", "LME"⟩, 1/4),
                   (⟨"Zinc", "Nov-2024", "LME"⟩, -(3/4))] = 1 :=
  ⟨⟨by decide,
    by simp [compute_asset_weights, grossValue, snaSum, signedValue,
      twoKeyBook, uniqueFirst, uniqueFirstAux, Function.comp] <;> norm_num⟩,
    claim_C2_amended twoKeyBook _ (by decide)
      (by simp [compute_asset_weights, grossValue, snaSum, signedValue,
        twoKeyBook, uniqueFirst, uniqueFirstAux, Function.comp] <;> norm_num)⟩

/-!
### Claim C7 (covariance matrix symmetric with nonnegative diagonal)
-/

theorem insertAsc_length {α : Type} (le : α → α → Bool) (x : α) :
    ∀ l : List α, (insertAsc le x l).length = l.length + 1 := by
  intro l
  induction l with
  | nil => rfl
  | cons y ys ih =>
    rw [insertAsc]
    by_cases h : le x y
    · rw [if_pos h]
      rfl
    · rw [if_neg h, List.length_cons, List.length_cons, ih]

theorem sortAsc_cons {α : Type} (le : α → α → Bool) (x : α) (l : List α) :
    sortAsc le (x :: l) = insertAsc le x (sortAsc le l) := rfl

theorem sortAsc_length {α : Type} (le : α → α → Bool) (l : List α) :
    (sortAsc le l).length = l.length := by
  induction l with
  | nil => rfl
  | cons x t ih => rw [sortAsc_cons, insertAsc_length, ih, List.length_cons]

theorem zipWith_sub_mean_comm (mx my : ℚ) : ∀ (xs ys : List ℚ),
    (List.zipWith (fun a b => (a - mx) * (b - my)) xs ys).sum
      = (List.zipWith (fun a b => (a - my) * (b - mx)) ys xs).sum := by
  intro xs
  induction xs with
  | nil => intro ys; cases ys <;> rfl
  | cons x t ih =>
    intro ys
    cases ys with
    | nil => rfl
    | cons y u =>
      simp only [List.zipWith_cons_cons, List.sum_cons]
      rw [ih u, mul_comm]

theorem zipWith_self_sq_nonneg (c : ℚ) : ∀ xs : List ℚ,
    0 ≤ (List.zipWith (fun a b => (a - c) * (b - c)) xs xs).sum := by
  intro xs
  induction xs with
  | nil => simp
  | cons x t ih =>
    simp only [List.zipWith_cons_cons, List.sum_cons]
    have hsq := mul_self_nonneg (x - c)
    linarith

theorem sampleCov_comm {xs ys : List ℚ} (hlen : xs.length = ys.length) :
    sampleCov xs ys = sampleCov ys xs := by
  unfold sampleCov
  rw [zipWith_sub_mean_comm, hlen]

theorem sampleCov_self_nonneg {xs : List ℚ} (h2 : 2 ≤ xs.length) :
    0 ≤ sampleCov xs xs := by
  unfold sampleCov
  apply div_nonneg (zipWith_self_sq_nonneg _ xs)
  have : (2 : ℚ) ≤ (xs.length : ℚ) := by exact_mod_cast h2
  linarith

theorem covReturnCol_length (prices : List PriceRow) (lookback : Int)
    (c : String) : (covReturnCol prices lookback c).length = covN prices lookback := by
  unfold covReturnCol covN covPriceCol
  rw [List.length_zipWith, List.length_dropLast, List.length_tail,
    List.length_map, min_self]

/-- Claim C7: every covariance matrix the estimator returns equals its own
transpose (entrywise, NaN entries included), and every defined diagonal
entry is nonnegative (it is a sample variance). -/
theorem claim_C7_cov_invariants (prices : List PriceRow) (lookback : Int)
    (M : CovMatrix) (i j : String)
    (h : compute_covariance_matrix prices lookback = Except.ok M) :
    M.entry i j = M.entry j i ∧ ∀ q, M.entry i i = some q → 0 ≤ q := by
  unfold compute_covariance_matrix at h
  by_cases hdup : ((covWindowRows prices lookback).map
      (fun r => (r.date.getD 0, instrumentName r.key))).Nodup
  · rw [if_pos hdup] at h
    injection h with h
    subst h
    constructor
    · by_cases hn : 2 ≤ covN prices lookback
      · simp only [hn, if_pos]
        rw [sampleCov_comm]
        rw [covReturnCol_length, covReturnCol_length]
      · simp only [hn, if_neg, not_false_iff]
    · intro q hq
      by_cases hn : 2 ≤ covN prices lookback
      · simp only [hn, if_pos, Option.some.injEq] at hq
        have hlen : 2 ≤ (covReturnCol prices lookback i).length := by
          rw [covReturnCol_length]
          exact hn
        exact hq ▸ sampleCov_self_nonneg hlen
      · simp only [hn, if_neg, not_false_iff] at hq
        exact Option.noConfusion hq
  · rw [if_neg hdup] at h
    exact absurd h (by simp)

/-- Witness for `claim_C7_cov_invariants` on the concrete panel `covPanel`. -/
theorem claim_C7_cov_invariants_witness :
    covPanelMatrix.entry "Alum_Jan-2025_LME" "Zinc_Jan-2025_LME"
      = covPanelMatrix.entry "Zinc_Jan-2025_LME" "Alum_Jan-2025_LME"
    ∧ ∀ q, covPanelMatrix.entry "Alum_Jan-2025_LME" "Alum_Jan-2025_LME" = some q
        → 0 ≤ q :=
  claim_C7_cov_invariants covPanel 365 covPanelMatrix
    "Alum_Jan-2025_LME" "Zinc_Jan-2025_LME" rfl

/-!
### Claim C3 (insufficient history surfaces as NaN, not a distinguishable result)
-/

/-- Claim C3, counterexample: with a single usable date, the historical VaR
computation returns the float NaN (`none` in this model) rather than a
distinguishable "insufficient data" result, and the covariance estimator
returns an ordinary `.ok` matrix whose every cell is NaN — silently consumed
downstream by the parametric formula — rather than any failure signal. -/
theorem claim_C3_counterexample :
    compute_historical_var [] thinPanel 365 (99/100) = none
    ∧ compute_covariance_matrix thinPanel 365 = Except.ok thinPanelMatrix
    ∧ thinPanelMatrix.cols = ["Alum_Jan-2025_LME"]
    ∧ thinPanelMatrix.entry "Alum_Jan-2025_LME" "Alum_Jan-2025_LME" = none := by
  refine ⟨rfl, rfl, rfl, rfl⟩

/-- Claim C3, amended: when fewer than 2 usable dates are available the
computation does not crash, but the insufficient-data outcome is the float
NaN, not a distinguishable result: the historical VaR returns NaN (after
printing a warning) exactly when the reconstructed series has fewer than 2
dates, and a covariance estimation with fewer than 2 usable dates returns an
ordinary matrix in which every entry is NaN, with no explicit signal. -/
theorem claim_C3_amended :
    (∀ (ps : List Position) (prices : List PriceRow) (lookback : Int)
        (confidence : ℚ),
      compute_historical_var ps prices lookback confidence = none
        ↔ (compute_portfolio_value_time_series ps prices lookback).length < 2)
    ∧ (∀ (prices : List PriceRow) (lookback : Int) (M : CovMatrix),
        compute_covariance_matrix prices lookback = Except.ok M →
        (covKeptDates prices lookback).length ≤ 1 →
        ∀ i j, M.entry i j = none) := by
  constructor
  · intro ps prices lookback confidence
    unfold compute_historical_var
    by_cases h0 : (compute_portfolio_value_time_series ps prices lookback).isEmpty
    · simp only [h0, if_pos]
      have := List.isEmpty_iff.mp h0
      rw [this]
      simp
    · simp only [h0, if_neg, not_false_iff]
      have hne : (compute_portfolio_value_time_series ps prices lookback).length ≠ 0 := by
        intro hc
        exact h0 (List.isEmpty_iff.mpr (List.length_eq_zero.mp hc))
      have hlen : (List.zipWith (fun a b => b.2 - a.2)
          (sortAsc (fun a b => decide (a.1 ≤ b.1))
            (compute_portfolio_value_time_series ps prices lookback)).dropLast
          (sortAsc (fun a b => decide (a.1 ≤ b.1))
            (compute_portfolio_value_time_series ps prices lookback)).tail).length
          = (compute_portfolio_value_time_series ps prices lookback).length - 1 := by
        rw [List.length_zipWith, List.length_dropLast, List.length_tail,
          sortAsc_length, min_self]
      by_cases h1 : (List.zipWith (fun a b => b.2 - a.2)
          (sortAsc (fun a b => decide (a.1 ≤ b.1))
            (compute_portfolio_value_time_series ps prices lookback)).dropLast
          (sortAsc (fun a b => decide (a.1 ≤ b.1))
            (compute_portfolio_value_time_series ps prices lookback)).tail).isEmpty
      · simp only [h1, if_pos]
        have h2 := List.isEmpty_iff.mp h1
        rw [h2] at hlen
        simp only [List.length_nil] at hlen
        constructor
        · intro _
          omega
        · intro _
          rfl
      · simp only [h1, if_neg, not_false_iff]
        have h2 : (List.zipWith (fun a b => b.2 - a.2)
            (sortAsc (fun a b => decide (a.1 ≤ b.1))
              (compute_portfolio_value_time_series ps prices lookback)).dropLast
            (sortAsc (fun a b => decide (a.1 ≤ b.1))
              (compute_portfolio_value_time_series ps prices lookback)).tail).length ≠ 0 := by
          intro hc
          exact h1 (List.isEmpty_iff.mpr (List.length_eq_zero.mp hc))
        rw [hlen] at h2
        constructor
        · intro hc
          exact absurd hc (by simp)
        · intro hc
          omega
  · intro prices lookback M h hkept i j
    unfold compute_covariance_matrix at h
    by_cases hdup : ((covWindowRows prices lookback).map
        (fun r => (r.date.getD 0, instrumentName r.key))).Nodup
    · rw [if_pos hdup] at h
      injection h with h
      subst h
      have hn : ¬ 2 ≤ covN prices lookback := by
        unfold covN
        unfold covKeptDates at hkept
        rw [List.length_map] at hkept
        omega
      simp only [hn, if_neg, not_false_iff]
    · rw [if_neg hdup] at h
      exact absurd h (by simp)

/-- Witness for `claim_C3_amended` at concrete insufficient-history inputs. -/
theorem claim_C3_amended_witness :
    compute_historical_var [] thinPanel 365 (99/100) = none ∧
    thinPanelMatrix.entry "Alum_Jan-2025_LME" "Alum_Jan-2025_LME" = none :=
  ⟨(claim_C3_amended.1 [] thinPanel 365 (99/100)).mpr (by decide),
   claim_C3_amended.2 thinPanel 365 thinPanelMatrix rfl (by decide) _ _⟩

/-!
### Claim C1 (parametric VaR formula) and Claim C10 (purity / mutation)
-/

theorem nanSum_consD (o : Option ℚ) (l : List (Option ℚ)) :
    nanSum (o :: l) = nanAdd o (nanSum l) := rfl

theorem nanSum_all_some : ∀ {l : List (Option ℚ)},
    (∀ o ∈ l, o.isSome = true) →
    nanSum l = some ((l.map (fun o => o.getD 0)).sum) := by
  intro l
  induction l with
  | nil => intro _; rfl
  | cons o t ih =>
    intro h
    rw [nanSum_consD, ih (fun x hx => h x (List.mem_cons_of_mem o hx))]
    obtain ⟨a, ha⟩ := Option.isSome_iff_exists.mp (h o (List.mem_cons_self o t))
    subst ha
    simp [nanAdd]

theorem nanMul_some_getD (a : ℚ) (o : Option ℚ) :
    (nanMul (some a) o).getD 0 = a * o.getD 0 := by
  cases o <;> simp [nanMul]

theorem nanMul_some_isSome (a : ℚ) {o : Option ℚ} (h : o.isSome = true) :
    (nanMul (some a) o).isSome = true := by
  obtain ⟨b, hb⟩ := Option.isSome_iff_exists.mp h
  subst hb
  rfl

theorem list_sum_map_zero {β : Type} (l : List β) :
    (l.map (fun _ => (0 : ℚ))).sum = 0 := by
  induction l with
  | nil => rfl
  | cons b t ih => simp [ih]

theorem list_sum_map_add {β : Type} (l : List β) (g h : β → ℚ) :
    (l.map (fun b => g b + h b)).sum = (l.map g).sum + (l.map h).sum := by
  induction l with
  | nil => simp
  | cons b t ih =>
    simp only [List.map_cons, List.sum_cons, ih]
    ring

theorem list_sum_sum_comm {α β : Type} (l1 : List α) (l2 : List β) (f : α → β → ℚ) :
    (l1.map (fun i => (l2.map (fun j => f i j)).sum)).sum
      = (l2.map (fun j => (l1.map (fun i => f i j)).sum)).sum := by
  induction l1 with
  | nil => simp [list_sum_map_zero]
  | cons a t ih =>
    simp only [List.map_cons, List.sum_cons, ih]
    rw [← list_sum_map_add]

theorem list_sum_mul_right {β : Type} (l : List β) (g : β → ℚ) (c : ℚ) :
    (l.map g).sum * c = (l.map (fun b => g b * c)).sum := by
  induction l with
  | nil => simp
  | cons b t ih =>
    simp only [List.map_cons, List.sum_cons, add_mul, ih]

theorem list_mul_sum_left {β : Type} (l : List β) (g : β → ℚ) (c : ℚ) :
    c * (l.map g).sum = (l.map (fun b => c * g b)).sum := by
  induction l with
  | nil => simp
  | cons b t ih =>
    simp only [List.map_cons, List.sum_cons, mul_add, ih]

theorem quadForm_eq_spec (cov : CovMatrix) (w : List ℚ)
    (h : ∀ i ∈ cov.cols, ∀ j ∈ cov.cols, (cov.entry i j).isSome = true) :
    quadForm cov w = some (quadFormSpec cov w) := by
  have hvec : wTcovVec cov w = cov.cols.map (fun j =>
      some (((cov.cols.zip w).map
        (fun iw => iw.2 * (cov.entry iw.1 j).getD 0)).sum)) := by
    unfold wTcovVec
    apply List.map_congr_left
    intro j hj
    rw [nanSum_all_some (by
      intro o ho
      rcases List.mem_map.mp ho with ⟨iw, hiw, rfl⟩
      exact nanMul_some_isSome _ (h iw.1 (List.mem_zip hiw).1 j hj))]
    rw [List.map_map]
    apply congrArg some
    apply congrArg List.sum
    apply List.map_congr_left
    intro iw _
    simp only [Function.comp_apply]
    exact nanMul_some_getD iw.2 (cov.entry iw.1 j)
  unfold quadForm
  rw [hvec, List.zip_map_left, List.map_map]
  rw [nanSum_all_some (by
    intro o ho
    rcases List.mem_map.mp ho with ⟨jw, _, rfl⟩
    rfl)]
  rw [List.map_map]
  unfold quadFormSpec
  apply congrArg some
  have hstep1 : ∀ jw ∈ cov.cols.zip w,
      ((fun o : Option ℚ => o.getD 0) ∘
        ((fun vw : Option ℚ × ℚ => nanMul vw.1 (some vw.2)) ∘
          (Prod.map (fun j => some (((cov.cols.zip w).map
            (fun iw => iw.2 * (cov.entry iw.1 j).getD 0)).sum)) id))) jw
      = ((cov.cols.zip w).map
          (fun iw => iw.2 * (cov.entry iw.1 jw.1).getD 0 * jw.2)).sum := by
    intro jw _
    simp only [Function.comp_apply, Prod.map_apply, id_eq, nanMul]
    exact list_sum_mul_right _ _ _
  rw [List.map_congr_left hstep1]
  rw [list_sum_sum_comm (cov.cols.zip w) (cov.cols.zip w)
    (fun a b => b.2 * (cov.entry b.1 a.1).getD 0 * a.2)]
  apply congrArg List.sum
  apply List.map_congr_left
  intro iw _
  rw [list_mul_sum_left]
  apply congrArg List.sum
  apply List.map_congr_left
  intro jw _
  ring

/-- Claim C1: with every needed covariance entry defined, the parametric
VaR computation returns `portfolio_value * z * sqrt(wᵗ Σ w)` where `w` is
the weight vector reindexed onto the covariance matrix's instrument
ordering, instruments absent from the matrix getting weight 0. -/
theorem claim_C1_parametric_var_formula (weights : List (SKey × ℚ))
    (cov : CovMatrix) (z : ℝ) (pv : ℚ)
    (h : ∀ i ∈ cov.cols, ∀ j ∈ cov.cols, (cov.entry i j).isSome = true) :
    (compute_parametric_var weights cov z pv).1
      = some ((pv : ℝ) * z * Real.sqrt
          ((quadFormSpec cov (reindexW (renameWeights weights) cov.cols) : ℚ) : ℝ)) := by
  unfold compute_parametric_var
  dsimp only
  rw [quadForm_eq_spec cov _ h]
  dsimp only
  rw [mul_assoc]

/-- Witness for `claim_C1_parametric_var_formula` at a concrete one-column
covariance matrix and tuple-keyed weight Series. -/
theorem claim_C1_parametric_var_formula_witness :
    (∀ i ∈ c1cov.cols, ∀ j ∈ c1cov.cols, (c1cov.entry i j).isSome = true) ∧
    (compute_parametric_var c1weights c1cov 2 1000).1
      = some (((1000 : ℚ) : ℝ) * 2 * Real.sqrt
          ((quadFormSpec c1cov (reindexW (renameWeights c1weights) c1cov.cols) : ℚ) : ℝ)) :=
  ⟨by decide, claim_C1_parametric_var_formula c1weights c1cov 2 1000 (by decide)⟩

theorem list_map_eq_self {α : Type} (f : α → α) :
    ∀ (l : List α), l.map f = l → ∀ x ∈ l, f x = x := by
  intro l
  induction l with
  | nil => intro _ x hx; exact absurd hx (List.not_mem_nil x)
  | cons a t ih =>
    intro h x hx
    rw [List.map_cons] at h
    injection h with h1 h2
    rcases List.mem_cons.mp hx with rfl | hxt
    · exact h1
    · exact ih h2 x hxt

/-- Claim C10, amended: the parametric pipeline is a pure function of its
inputs in every respect except one — `compute_parametric_var` rewrites the
index of the weight Series passed to it in place, replacing every tuple
label by the flat `metal_maturity_exchange` string; so whenever the passed
Series has at least one tuple label, the caller's Series is modified. -/
theorem claim_C10_weights_mutation (weights : List (SKey × ℚ))
    (cov : CovMatrix) (z : ℝ) (pv : ℚ) :
    (compute_parametric_var weights cov z pv).2 = renameWeights weights
    ∧ ((∃ kv ∈ weights, kv.1.isLeft = true)
        → (compute_parametric_var weights cov z pv).2 ≠ weights) := by
  constructor
  · rfl
  · rintro ⟨kv, hkv, hleft⟩ hc
    have hc2 : renameWeights weights = weights := hc
    unfold renameWeights at hc2
    have hfix := list_map_eq_self _ weights hc2 kv hkv
    rcases kv with ⟨k, v⟩
    cases k with
    | inl ik => exact Sum.noConfusion (congrArg Prod.fst hfix)
    | inr s => simp at hleft

/-- Witness for `claim_C10_weights_mutation` on a concrete tuple-keyed
weight Series. -/
theorem claim_C10_weights_mutation_witness :
    ((compute_parametric_var c1weights c1cov 0 0).2 = renameWeights c1weights)
    ∧ (compute_parametric_var c1weights c1cov 0 0).2 ≠ c1weights :=
  ⟨(claim_C10_weights_mutation c1weights c1cov 0 0).1,
   (claim_C10_weights_mutation c1weights c1cov 0 0).2
     ⟨(Sum.inl ⟨"Copper", "Oct-2024", "LME"⟩, 1), by simp [c1weights], rfl⟩⟩

/-- Claim C10, counterexample: the weight Series passed into
`compute_parametric_var` does not come back unmodified — its tuple index
labels have been rewritten in place into flat strings. -/
theorem claim_C10_counterexample :
    (compute_parametric_var c1weights c1cov 0 0).2 ≠ c1weights := by
  decide

/-!
### Claim C6 (price join attaches at most one price, absent match stays null)
-/

theorem latestQuoteFor_stays_some (k : InstrumentKey) :
    ∀ (l : List PriceRow) (a : PriceRow),
      l.foldl (fun acc r =>
        if r.key = k then
          match acc with
          | none => some r
          | some a2 =>
            if a2.date.getD 0 ≤ r.date.getD 0 then some r else some a2
        else acc) (some a) ≠ none := by
  intro l
  induction l with
  | nil => intro a h; exact Option.noConfusion h
  | cons r t ih =>
    intro a
    rw [List.foldl_cons]
    by_cases hk : r.key = k
    · rw [if_pos hk]
      dsimp only
      by_cases hd : a.date.getD 0 ≤ r.date.getD 0
      · rw [if_pos hd]; exact ih r
      · rw [if_neg hd]; exact ih a
    · rw [if_neg hk]; exact ih a

theorem latestQuoteFor_none_iff (prices : List PriceRow) (k : InstrumentKey) :
    latestQuoteFor prices k = none ↔ ∀ r ∈ validPriceRows prices, r.key ≠ k := by
  unfold latestQuoteFor
  generalize validPriceRows prices = l
  induction l with
  | nil => simp
  | cons r t ih =>
    rw [List.foldl_cons]
    by_cases hk : r.key = k
    · rw [if_pos hk]
      dsimp only
      constructor
      · intro hcontra
        exact absurd hcontra (latestQuoteFor_stays_some k t r)
      · intro hall
        exact absurd hk (hall r (List.mem_cons_self r t))
    · rw [if_neg hk, ih]
      constructor
      · intro hall r2 hr2
        rcases List.mem_cons.mp hr2 with rfl | h2
        · exact hk
        · exact hall r2 h2
      · intro hall r2 hr2
        exact hall r2 (List.mem_cons_of_mem r hr2)

theorem flatMap_eq_self {α β : Type} (g : α → List β) (f : β → α) :
    ∀ l : List α, (∀ a ∈ l, (g a).map f = [a]) → (l.flatMap g).map f = l := by
  intro l
  induction l with
  | nil => intro _; rfl
  | cons a t ih =>
    intro h
    rw [List.flatMap_cons, List.map_append, h a (List.mem_cons_self a t),
      ih (fun x hx => h x (List.mem_cons_of_mem a hx))]
    rfl

/-- Claim C6, amended: the latest-as-of join attaches exactly one row per
position and leaves an unmatched position's price NaN (never 0); the
exact-date join leaves an unmatched position's price NaN (never 0), and
attaches at most one price per position provided no instrument carries two
quotes dated the same day — with duplicate same-day quotes the left merge
duplicates the position row, one output row per matching quote. -/
theorem claim_C6_price_join (ps : List Position) (prices : List PriceRow)
    (d : Int) :
    ((merge_latest_prices ps prices).map (fun pp => pp.pos) = ps
      ∧ ∀ pp ∈ merge_latest_prices ps prices,
          (pp.quote = none ↔
            ¬ ∃ r ∈ prices, r.key = pp.pos.key ∧ r.date.isSome = true))
    ∧ ((∀ pp ∈ merge_prices_on_date ps prices d,
          (pp.quote = none ↔
            ¬ ∃ r ∈ prices, r.key = pp.pos.key ∧ r.date = some d))
      ∧ ((∀ p ∈ ps,
            ((pricesOnDate prices d).filter
              (fun r => decide (r.key = p.key))).length ≤ 1)
          → (merge_prices_on_date ps prices d).map (fun pp => pp.pos) = ps)) := by
  refine ⟨⟨?_, ?_⟩, ?_, ?_⟩
  · unfold merge_latest_prices
    rw [List.map_map]
    have hpt : ∀ p ∈ ps,
        ((fun pp : PricedPosition => pp.pos) ∘ (fun p =>
          match latestQuoteFor prices p.key with
          | some r => ⟨p, some r.quote, r.date⟩
          | none => ⟨p, none, none⟩)) p = p := by
      intro p _
      simp only [Function.comp_apply]
      cases latestQuoteFor prices p.key <;> rfl
    rw [List.map_congr_left hpt]
    exact List.map_id ps
  · intro pp hpp
    unfold merge_latest_prices at hpp
    rcases List.mem_map.mp hpp with ⟨p, hp, hpe⟩
    cases hlq : latestQuoteFor prices p.key with
    | none =>
      rw [hlq] at hpe
      subst hpe
      have hnone := (latestQuoteFor_none_iff prices p.key).mp hlq
      constructor
      · rintro _ ⟨r, hr, hkey, hsome⟩
        exact hnone r (List.mem_filter.mpr ⟨hr, hsome⟩) hkey
      · intro _
        rfl
    | some r =>
      rw [hlq] at hpe
      subst hpe
      constructor
      · intro hc
        exact Option.noConfusion hc
      · intro hc
        exfalso
        apply hc
        by_contra hno
        push_neg at hno
        have hn : latestQuoteFor prices p.key = none := by
          apply (latestQuoteFor_none_iff prices p.key).mpr
          intro r2 hr2 hkey
          have hmem := List.mem_filter.mp hr2
          exact hno r2 hmem.1 hkey hmem.2
        rw [hn] at hlq
        exact Option.noConfusion hlq
  · intro pp hpp
    unfold merge_prices_on_date at hpp
    rcases List.mem_flatMap.mp hpp with ⟨p, hp, hmem⟩
    cases hfil : (pricesOnDate prices d).filter (fun r => decide (r.key = p.key)) with
    | nil =>
      rw [hfil] at hmem
      have hpp2 : (⟨p, none, none⟩ : PricedPosition) = pp := by
        rcases List.mem_cons.mp hmem with h1 | h1
        · exact h1.symm
        · exact absurd h1 (List.not_mem_nil pp)
      subst hpp2
      have hnomatch : ∀ r ∈ pricesOnDate prices d, ¬ (r.key = p.key) := by
        intro r hr hk
        have hf := List.filter_eq_nil_iff.mp hfil r hr
        simp only [decide_eq_true_eq] at hf
        exact hf hk
      constructor
      · rintro _ ⟨r, hr, hkey, hdate⟩
        refine hnomatch r (List.mem_filter.mpr ⟨hr, ?_⟩) hkey
        simp only [hdate, decide_eq_true_eq]
      · intro _
        rfl
    | cons r rest =>
      rw [hfil] at hmem
      rcases List.mem_map.mp hmem with ⟨r2, hr2, hpe⟩
      subst hpe
      constructor
      · intro hc
        exact Option.noConfusion hc
      · intro hc
        exfalso
        apply hc
        have hr2fil : r2 ∈ (pricesOnDate prices d).filter
            (fun r => decide (r.key = p.key)) := by
          rw [hfil]
          exact hr2
        have hm := List.mem_filter.mp hr2fil
        have hkey : r2.key = p.key := by
          have h2 := hm.2
          simp only [decide_eq_true_eq] at h2
          exact h2
        have hpd := List.mem_filter.mp hm.1
        have hdate : r2.date = some d := by
          have h2 := hpd.2
          simp only [decide_eq_true_eq] at h2
          exact h2
        exact ⟨r2, hpd.1, hkey, hdate⟩
  · intro hq
    unfold merge_prices_on_date
    apply flatMap_eq_self
    intro p hp
    dsimp only
    cases hfil : (pricesOnDate prices d).filter (fun r => decide (r.key = p.key)) with
    | nil =>
      rfl
    | cons r rest =>
      have hlen := hq p hp
      rw [hfil] at hlen
      simp only [List.length_cons] at hlen
      have hrest : rest = [] := by
        have h0 : rest.length = 0 := by omega
        exact List.length_eq_zero.mp h0
      subst hrest
      rfl

/-- Witness for `claim_C6_price_join` on a one-position book and a
one-quote-per-day panel. -/
theorem claim_C6_price_join_witness :
    (merge_prices_on_date c6pos c6panel 5).map (fun pp => pp.pos) = c6pos :=
  (claim_C6_price_join c6pos c6panel 5).2.2 (by decide)

/-- Claim C6, counterexample: with two Copper quotes on the same day, the
exact-date join attaches two mass-prices to the single Copper position (the
position row is duplicated), violating "at most one mass-price per position
per valuation date". -/
theorem claim_C6_counterexample :
    c6pos.length = 1 ∧ (merge_prices_on_date c6pos dupDayPanel 5).length = 2 := by
  constructor
  · rfl
  · rfl

/-!
### Claim C4 (all-or-nothing daily inclusion in the portfolio value series)
-/

theorem mem_ts_iff (ps : List Position) (prices : List PriceRow)
    (lookback : Int) (d : Int) (v : ℚ) :
    (d, v) ∈ compute_portfolio_value_time_series ps prices lookback
      ↔ d ∈ tsWindowDates prices lookback ∧ dayMissingCount ps prices d = 0
          ∧ v = dayPortfolioValue ps prices d := by
  unfold compute_portfolio_value_time_series
  rw [List.mem_filterMap]
  constructor
  · rintro ⟨a, ha, hfa⟩
    by_cases hm : dayMissingCount ps prices a > 0
    · rw [if_pos hm] at hfa
      exact absurd hfa (by simp)
    · rw [if_neg hm] at hfa
      injection hfa with hfa
      have h1 : a = d := congrArg Prod.fst hfa
      have h2 : dayPortfolioValue ps prices a = v := congrArg Prod.snd hfa
      subst h1
      exact ⟨ha, by omega, h2.symm⟩
  · rintro ⟨hd2, hm, rfl⟩
    refine ⟨d, hd2, ?_⟩
    rw [if_neg (by omega)]

theorem dayMissing_zero_iff (ps : List Position) (prices : List PriceRow)
    (d : Int) :
    dayMissingCount ps prices d = 0
      ↔ ∀ p ∈ ps, ∃ r ∈ pricesOnDate prices d, r.key = p.key := by
  unfold dayMissingCount
  rw [List.countP_eq_zero]
  constructor
  · intro h p hp
    cases hfil : (pricesOnDate prices d).filter (fun r => decide (r.key = p.key)) with
    | nil =>
      exfalso
      have hmem : ((p, none) : Position × Option ℚ) ∈ dayMergedRows ps prices d := by
        unfold dayMergedRows
        apply List.mem_flatMap.mpr
        refine ⟨p, hp, ?_⟩
        rw [hfil]
        exact List.mem_singleton.mpr rfl
      have hcon := h _ hmem
      simp at hcon
    | cons r rest =>
      have hrfil : r ∈ (pricesOnDate prices d).filter
          (fun r => decide (r.key = p.key)) := by
        rw [hfil]
        exact List.mem_cons_self r rest
      have hm := List.mem_filter.mp hrfil
      refine ⟨r, hm.1, ?_⟩
      have h2 := hm.2
      simp only [decide_eq_true_eq] at h2
      exact h2
  · intro h x hx
    unfold dayMergedRows at hx
    rcases List.mem_flatMap.mp hx with ⟨p, hp, hmem⟩
    cases hfil : (pricesOnDate prices d).filter (fun r => decide (r.key = p.key)) with
    | nil =>
      exfalso
      rcases h p hp with ⟨r, hr, hk⟩
      have : r ∈ (pricesOnDate prices d).filter
          (fun r => decide (r.key = p.key)) :=
        List.mem_filter.mpr ⟨hr, by simp only [hk, decide_eq_true_eq]⟩
      rw [hfil] at this
      exact List.not_mem_nil r this
    | cons r rest =>
      rw [hfil] at hmem
      rcases List.mem_map.mp hmem with ⟨r2, _, hpe⟩
      subst hpe
      simp

theorem list_sum_flatMap {α β : Type} (l : List α) (g : α → List β) (f : β → ℚ) :
    ((l.flatMap g).map f).sum = (l.map (fun a => ((g a).map f).sum)).sum := by
  induction l with
  | nil => rfl
  | cons a t ih =>
    rw [List.flatMap_cons, List.map_append, List.sum_append, ih]
    simp

theorem find?_of_filter_cons {α : Type} (p : α → Bool) :
    ∀ (l : List α) (a : α) (rest : List α),
      l.filter p = a :: rest → l.find? p = some a := by
  intro l
  induction l with
  | nil => intro a rest h; exact absurd h (by simp)
  | cons x t ih =>
    intro a rest h
    by_cases hx : p x = true
    · rw [List.filter_cons_of_pos hx] at h
      injection h with h1 h2
      rw [List.find?_cons_of_pos t hx, h1]
    · rw [List.filter_cons_of_neg (by simpa using hx)] at h
      rw [List.find?_cons_of_neg t (by simpa using hx)]
      exact ih a rest h

/-- Claim C4, amended: a window date appears in the output series if and
only if every position has at least one matching quote that day (a day with
any missing match is dropped entirely); and when additionally no instrument
has two quotes on that day, the day's value is the sum over positions of
signed volume times that day's quote.  (With duplicate same-day quotes the
left merge duplicates position rows and the value sums over all matching
position-quote pairs instead.) -/
theorem claim_C4_time_series (ps : List Position) (prices : List PriceRow)
    (lookback : Int) (d : Int) (hd : d ∈ tsWindowDates prices lookback) :
    ((∃ v, (d, v) ∈ compute_portfolio_value_time_series ps prices lookback)
      ↔ ∀ p ∈ ps, ∃ r ∈ pricesOnDate prices d, r.key = p.key)
    ∧ (∀ v, (d, v) ∈ compute_portfolio_value_time_series ps prices lookback →
        (∀ p ∈ ps, ((pricesOnDate prices d).filter
            (fun r => decide (r.key = p.key))).length ≤ 1) →
        v = (ps.map (fun p => p.netVolume *
          (((pricesOnDate prices d).find?
            (fun r => decide (r.key = p.key))).map (fun r => r.quote)).getD 0)).sum) := by
  constructor
  · constructor
    · rintro ⟨v, hv⟩
      have h3 := (mem_ts_iff ps prices lookback d v).mp hv
      exact (dayMissing_zero_iff ps prices d).mp h3.2.1
    · intro hall
      exact ⟨dayPortfolioValue ps prices d,
        (mem_ts_iff ps prices lookback d _).mpr
          ⟨hd, (dayMissing_zero_iff ps prices d).mpr hall, rfl⟩⟩
  · intro v hv hq
    have h3 := (mem_ts_iff ps prices lookback d v).mp hv
    have hall := (dayMissing_zero_iff ps prices d).mp h3.2.1
    rw [h3.2.2]
    unfold dayPortfolioValue snaSum dayMergedRows
    rw [List.map_map, list_sum_flatMap]
    apply congrArg List.sum
    apply List.map_congr_left
    intro p hp
    dsimp only
    cases hfil : (pricesOnDate prices d).filter (fun r => decide (r.key = p.key)) with
    | nil =>
      exfalso
      rcases hall p hp with ⟨r, hr, hk⟩
      have hrmem : r ∈ (pricesOnDate prices d).filter
          (fun r => decide (r.key = p.key)) :=
        List.mem_filter.mpr ⟨hr, by simp only [hk, decide_eq_true_eq]⟩
      rw [hfil] at hrmem
      exact List.not_mem_nil r hrmem
    | cons r rest =>
      have hlen := hq p hp
      rw [hfil, List.length_cons] at hlen
      have hrest : rest = [] := List.length_eq_zero.mp (by omega)
      subst hrest
      rw [find?_of_filter_cons _ (pricesOnDate prices d) r [] hfil]
      simp

/-- Witness for `claim_C4_time_series`: on a one-position book with a
matching quote, day 5 is included in the series. -/
theorem claim_C4_time_series_witness :
    ∃ v, (5, v) ∈ compute_portfolio_value_time_series c6pos c6panel 365 :=
  ((claim_C4_time_series c6pos c6panel 365 5 (by decide)).1).mpr (by decide)

/-- Claim C4, counterexample: with two same-day Copper quotes (10 and 20)
and one position of volume 1, the day is included with value 30 = 1·10 +
1·20 — the sum over matching pairs — which is not `signed volume × that
day's quote` for either available quote. -/
theorem claim_C4_counterexample :
    compute_portfolio_value_time_series c6pos dupDayPanel 365 = [(5, 30)]
    ∧ (30 : ℚ) ≠ 1 * 10 ∧ (30 : ℚ) ≠ 1 * 20 := by
  refine ⟨?_, by norm_num, by norm_num⟩
  simp [compute_portfolio_value_time_series, tsWindowDates, maxPriceDate,
    validPriceRows, uniqueFirst, uniqueFirstAux, sortAsc, insertAsc,
    dayMissingCount, dayMergedRows, pricesOnDate, dayPortfolioValue, snaSum,
    dupDayPanel, c6pos] <;> norm_num

/-!
### Claim C5 (per-partition failure isolation in the breakdown aggregator)
-/

theorem calculate_VaR_foldl {α : Type} (f : List Position → Except String α)
    (ps : List Position) :
    ∀ (levels : List String)
      (acc : Option α × List (String × List (String × α))),
      levels.foldl (fun acc level =>
        if level = "Total" then
          match f ps with
          | .ok v => (some v, acc.2)
          | .error _ => (acc.1, acc.2)
        else if level ∈ positionColumns then
          (acc.1, acc.2 ++ [(level, runLevel f ps level)])
        else acc) acc
      = (if "Total" ∈ levels then
            (match f ps with | .ok v => some v | .error _ => acc.1)
          else acc.1,
         acc.2 ++ levels.filterMap (fun lv =>
           if lv = "Total" then none
           else if lv ∈ positionColumns then some (lv, runLevel f ps lv)
           else none)) := by
  intro levels
  induction levels with
  | nil =>
    intro acc
    simp
  | cons lv rest ih =>
    intro acc
    rw [List.foldl_cons]
    by_cases h1 : lv = "Total"
    · subst h1
      rw [if_pos rfl, ih]
      cases f ps <;> by_cases h2 : "Total" ∈ rest <;>
        simp [h2, List.filterMap_cons]
    · rw [if_neg h1]
      by_cases h3 : lv ∈ positionColumns
      · rw [if_pos h3, ih]
        simp [h1, h3, List.filterMap_cons, List.mem_cons, Ne.symm h1,
          List.append_assoc]
      · rw [if_neg h3, ih]
        simp [h1, h3, List.filterMap_cons, List.mem_cons, Ne.symm h1]

theorem runLevelGo_prefix {α : Type} (f : List Position → Except String α)
    (ps : List Position) (l : String) :
    ∀ (pre : List String),
      (∀ e ∈ pre, (f (subPositions ps l e)).isOk = true) →
      ∀ (bad : String) (post : List String),
        (f (subPositions ps l bad)).isOk = false →
        (runLevelGo f ps l (pre ++ bad :: post)).map Prod.fst = pre := by
  intro pre
  induction pre with
  | nil =>
    intro _ bad post hbad
    rw [List.nil_append]
    cases hfb : f (subPositions ps l bad) with
    | ok v =>
      rw [hfb] at hbad
      exact Bool.noConfusion hbad
    | error e => simp [runLevelGo, hfb]
  | cons e pre ih =>
    intro hpre bad post hbad
    rw [List.cons_append]
    cases hfe : f (subPositions ps l e) with
    | ok v =>
      simp only [runLevelGo, hfe, List.map_cons]
      rw [ih (fun x hx => hpre x (List.mem_cons_of_mem e hx)) bad post hbad]
    | error msg =>
      have h1 := hpre e (List.mem_cons_self e pre)
      rw [hfe] at h1
      exact Bool.noConfusion h1

/-- Claim C5, amended: failures are caught per dimension, not per
partition.  The aggregator's dimensions are computed independently of each
other and of the total (first conjunct: the output decomposes level by
level), but within one dimension the first partition whose computation
raises aborts the rest of that dimension's loop: exactly the partitions
strictly before the failing one are reported (second conjunct). -/
theorem claim_C5_failure_isolation {α : Type}
    (f : List Position → Except String α) (ps : List Position)
    (levels : List String) (l : String)
    (pre : List String) (bad : String) (post : List String)
    (helts : elementsOf ps l = pre ++ bad :: post)
    (hpre : ∀ e ∈ pre, (f (subPositions ps l e)).isOk = true)
    (hbad : (f (subPositions ps l bad)).isOk = false) :
    calculate_VaR f ps levels
      = (if "Total" ∈ levels then exceptToOption (f ps) else none,
         levels.filterMap (fun lv =>
           if lv = "Total" then none
           else if lv ∈ positionColumns then some (lv, runLevel f ps lv)
           else none))
    ∧ (runLevel f ps l).map Prod.fst = pre := by
  constructor
  · unfold calculate_VaR
    rw [calculate_VaR_foldl f ps levels (none, [])]
    cases hf : f ps <;> simp [exceptToOption, hf]
  · unfold runLevel
    rw [helts]
    exact runLevelGo_prefix f ps l pre hpre bad post hbad

/-- Witness for `claim_C5_failure_isolation`: running the parametric
per-portfolio computation over `c5book` by BUSINESS LINE, partition "B"
(unquoted Gold, zero gross exposure) raises and only the earlier partition
"A" is reported. -/
theorem claim_C5_failure_isolation_witness :
    (calculate_VaR c5fReal c5book ["BUSINESS LINE"]
      = (if "Total" ∈ ["BUSINESS LINE"] then exceptToOption (c5fReal c5book)
          else none,
         ["BUSINESS LINE"].filterMap (fun lv =>
           if lv = "Total" then none
           else if lv ∈ positionColumns then some (lv, runLevel c5fReal c5book lv)
           else none)))
    ∧ (runLevel c5fReal c5book "BUSINESS LINE").map Prod.fst = ["A"] :=
  claim_C5_failure_isolation c5fReal c5book ["BUSINESS LINE"] "BUSINESS LINE"
    ["A"] "B" ["C"] (by decide)
    (by
      intro e he
      simp only [List.mem_singleton] at he
      subst he
      simp [c5fReal, calculate_VaR_from_portfolio, calculate_parametric_var,
        compute_z_score, ppfConst, compute_covariance_matrix, covWindowRows,
        covDates, covCols, covCell, covColFF, ffillGo, covKeptIdx,
        covKeptDates, covPriceCol, covReturnCol, covN, maxPriceDate,
        validPriceRows, sortAsc, insertAsc, uniqueFirst, uniqueFirstAux,
        merge_latest_prices, latestQuoteFor, compute_portfolio_value,
        compute_asset_weights, grossValue, snaSum, signedValue, subPositions,
        attrOf, c5panel, c5book, instrumentName, pricesOnDate,
        List.nodup_cons, Function.comp, Except.isOk, Except.toBool])
    (by
      simp [c5fReal, calculate_VaR_from_portfolio, calculate_parametric_var,
        compute_z_score, ppfConst, compute_covariance_matrix, covWindowRows,
        covDates, covCols, covCell, covColFF, ffillGo, covKeptIdx,
        covKeptDates, covPriceCol, covReturnCol, covN, maxPriceDate,
        validPriceRows, sortAsc, insertAsc, uniqueFirst, uniqueFirstAux,
        merge_latest_prices, latestQuoteFor, compute_portfolio_value,
        compute_asset_weights, grossValue, snaSum, signedValue, subPositions,
        attrOf, c5panel, c5book, instrumentName, pricesOnDate,
        List.nodup_cons, Function.comp, Except.isOk, Except.toBool])

/-- Claim C5, counterexample: partition "B" of dimension BUSINESS LINE
fails (no Gold quotes, zero gross exposure), and although partition "C"'s
VaR computation succeeds on its own, "C" is absent from the reported
breakdown — one bad partition aborts the later partitions of its
dimension. -/
theorem claim_C5_counterexample :
    ((calculate_VaR c5fReal c5book ["BUSINESS LINE"]).2.map
        (fun e => (e.1, e.2.map Prod.fst)) = [("BUSINESS LINE", ["A"])])
    ∧ (c5fReal (subPositions c5book "BUSINESS LINE" "C")).isOk = true := by
  constructor
  · simp [calculate_VaR, runLevel, runLevelGo, elementsOf, positionColumns,
      c5fReal, calculate_VaR_from_portfolio, calculate_parametric_var,
      compute_z_score, ppfConst, compute_covariance_matrix, covWindowRows,
      covDates, covCols, covCell, covColFF, ffillGo, covKeptIdx,
      covKeptDates, covPriceCol, covReturnCol, covN, maxPriceDate,
      validPriceRows, sortAsc, insertAsc, uniqueFirst, uniqueFirstAux,
      merge_latest_prices, latestQuoteFor, compute_portfolio_value,
      compute_asset_weights, grossValue, snaSum, signedValue, subPositions,
      attrOf, c5panel, c5book, instrumentName, pricesOnDate,
      List.nodup_cons, Function.comp, Except.isOk, Except.toBool]
  · simp [c5fReal, calculate_VaR_from_portfolio, calculate_parametric_var,
      compute_z_score, ppfConst, compute_covariance_matrix, covWindowRows,
      covDates, covCols, covCell, covColFF, ffillGo, covKeptIdx,
      covKeptDates, covPriceCol, covReturnCol, covN, maxPriceDate,
      validPriceRows, sortAsc, insertAsc, uniqueFirst, uniqueFirstAux,
      merge_latest_prices, latestQuoteFor, compute_portfolio_value,
      compute_asset_weights, grossValue, snaSum, signedValue, subPositions,
      attrOf, c5panel, c5book, instrumentName, pricesOnDate,
      List.nodup_cons, Function.comp, Except.isOk, Except.toBool]

/-!
### Claim C9 (outlier detector on degenerate groups)
-/

theorem uniqueFirstAux_not_mem_seen {α : Type} [DecidableEq α] :
    ∀ (l seen : List α) (y : α), y ∈ uniqueFirstAux seen l → y ∉ seen := by
  intro l
  induction l with
  | nil => intro seen y hy; exact absurd hy (List.not_mem_nil y)
  | cons x xs ih =>
    intro seen y hy
    rw [uniqueFirstAux] at hy
    by_cases hc : seen.any (fun z => decide (z = x)) = true
    · rw [if_pos hc] at hy
      exact ih seen y hy
    · rw [if_neg hc] at hy
      rcases List.mem_cons.mp hy with rfl | h2
      · intro hmem
        apply hc
        rw [List.any_eq_true]
        exact ⟨y, hmem, by simp⟩
      · intro hmem
        exact ih (x :: seen) y h2 (List.mem_cons_of_mem x hmem)

theorem uniqueFirstAux_nodup {α : Type} [DecidableEq α] :
    ∀ (l seen : List α), (uniqueFirstAux seen l).Nodup := by
  intro l
  induction l with
  | nil => intro seen; exact List.nodup_nil
  | cons x xs ih =>
    intro seen
    rw [uniqueFirstAux]
    by_cases hc : seen.any (fun z => decide (z = x)) = true
    · rw [if_pos hc]; exact ih seen
    · rw [if_neg hc]
      rw [List.nodup_cons]
      constructor
      · intro hmem
        exact uniqueFirstAux_not_mem_seen xs (x :: seen) x hmem
          (List.mem_cons_self x seen)
      · exact ih (x :: seen)

theorem mem_uniqueFirstAux {α : Type} [DecidableEq α] :
    ∀ (l seen : List α) (a : α), a ∈ l → (∀ y ∈ seen, y ≠ a) →
      a ∈ uniqueFirstAux seen l := by
  intro l
  induction l with
  | nil => intro seen a ha _; exact absurd ha (List.not_mem_nil a)
  | cons x xs ih =>
    intro seen a ha hseen
    rw [uniqueFirstAux]
    by_cases hc : seen.any (fun z => decide (z = x)) = true
    · rw [if_pos hc]
      rcases List.mem_cons.mp ha with rfl | h2
      · exfalso
        rcases List.any_eq_true.mp hc with ⟨z, hz, hza⟩
        simp only [decide_eq_true_eq] at hza
        exact hseen z hz hza
      · exact ih seen a h2 hseen
    · rw [if_neg hc]
      rcases List.mem_cons.mp ha with rfl | h2
      · exact List.mem_cons_self a _
      · by_cases hax : x = a
        · subst hax
          exact List.mem_cons_self x _
        · apply List.mem_cons_of_mem
          apply ih (x :: seen) a h2
          intro y hy
          rcases List.mem_cons.mp hy with rfl | h3
          · exact hax
          · exact hseen y h3

theorem mem_uniqueFirst {α : Type} [DecidableEq α] {l : List α} {a : α}
    (ha : a ∈ l) : a ∈ uniqueFirst l :=
  mem_uniqueFirstAux l [] a ha (fun y hy => absurd hy (List.not_mem_nil y))

theorem uniqueFirst_nodup {α : Type} [DecidableEq α] (l : List α) :
    (uniqueFirst l).Nodup := uniqueFirstAux_nodup l []

theorem sum_map_zero_g {κ M : Type} [AddCommMonoid M] (K : List κ) :
    (K.map (fun _ => (0 : M))).sum = 0 := by
  induction K with
  | nil => rfl
  | cons k rest ih => rw [List.map_cons, List.sum_cons, ih, add_zero]

theorem sum_map_if_mem {κ M : Type} [DecidableEq κ] [AddCommMonoid M]
    (x : M) (S : κ → M) (c : κ) :
    ∀ K : List κ, K.Nodup → c ∈ K →
      (K.map (fun k => if c = k then x + S k else S k)).sum
        = x + (K.map S).sum := by
  intro K
  induction K with
  | nil => intro _ hc; exact absurd hc (List.not_mem_nil c)
  | cons k0 rest ih =>
    intro hnd hc
    rw [List.map_cons, List.sum_cons, List.map_cons, List.sum_cons]
    by_cases hck : c = k0
    · rw [if_pos hck]
      have hrest : ∀ k ∈ rest, ¬ (c = k) := by
        intro k hk hek
        exact (List.nodup_cons.mp hnd).1 (hck ▸ hek ▸ hk)
      have hmap : rest.map (fun k => if c = k then x + S k else S k)
          = rest.map S := by
        apply List.map_congr_left
        intro k hk
        rw [if_neg (hrest k hk)]
      rw [hmap, add_assoc]
    · rw [if_neg hck]
      have hcrest : c ∈ rest := by
        rcases List.mem_cons.mp hc with h1 | h1
        · exact absurd h1 hck
        · exact h1
      rw [ih (List.nodup_cons.mp hnd).2 hcrest, add_left_comm]

theorem sum_filter_partition {α κ M : Type} [DecidableEq κ] [AddCommMonoid M]
    (key : α → κ) (g : α → M) :
    ∀ (l : List α) (K : List κ), K.Nodup → (∀ a ∈ l, key a ∈ K) →
      (K.map (fun k =>
        ((l.filter (fun a => decide (key a = k))).map g).sum)).sum
      = (l.map g).sum := by
  intro l
  induction l with
  | nil =>
    intro K _ _
    simp [sum_map_zero_g]
  | cons x xs ih =>
    intro K hnd hcov
    have hxK := hcov x (List.mem_cons_self x xs)
    have hcov2 : ∀ a ∈ xs, key a ∈ K :=
      fun a ha => hcov a (List.mem_cons_of_mem x ha)
    have hpt : ∀ k ∈ K,
        (((x :: xs).filter (fun a => decide (key a = k))).map g).sum
          = if key x = k then
              g x + ((xs.filter (fun a => decide (key a = k))).map g).sum
            else ((xs.filter (fun a => decide (key a = k))).map g).sum := by
      intro k _
      rw [List.filter_cons]
      by_cases hk : key x = k
      · simp [hk]
      · simp [hk]
    rw [List.map_congr_left hpt,
      sum_map_if_mem (g x)
        (fun k => ((xs.filter (fun a => decide (key a = k))).map g).sum)
        (key x) K hnd hxK,
      ih K hnd hcov2]
    simp

theorem groupVar_of_single (rows : List PriceRow) (k : InstrumentKey)
    (r : PriceRow) (h1 : groupRows rows k = [r]) : groupVar rows k = 0 := by
  unfold groupVar
  rw [h1]
  simp [listMean]

open Classical in
theorem zero_var_no_flag (rows : List PriceRow) (k : InstrumentKey) (t : ℚ)
    (ht : 0 ≤ t) (hv : groupVar rows k = 0) :
    groupOutlierCount rows k t = 0 := by
  unfold groupOutlierCount
  have hpt : ∀ r ∈ groupRows rows k,
      (if (t : ℝ) < |zscoreOf rows r| then (1 : ℕ) else 0) = 0 := by
    intro r hr
    have hk : r.key = k := by
      have h2 := (List.mem_filter.mp hr).2
      simpa using h2
    have hz : zscoreOf rows r = 0 := by
      unfold zscoreOf
      rw [hk, hv]
      simp
    rw [hz]
    rw [if_neg]
    rw [abs_zero, not_lt]
    exact_mod_cast ht
  rw [List.map_congr_left hpt]
  exact sum_map_zero_g (groupRows rows k)

open Classical in
/-- Claim C9: the outlier count decomposes as the sum of per-instrument
group contributions, and any group with fewer than 2 observations or zero
population variance contributes no outliers (its z-scores are all the
non-flagging 0, division by the zero standard deviation included); in
particular no division fault occurs — the function is total. -/
theorem claim_C9_outlier_detector (rows : List PriceRow) (t : ℚ)
    (k : InstrumentKey) (ht : 0 ≤ t)
    (h : (groupRows rows k).length < 2 ∨ groupVar rows k = 0) :
    detect_outliers_zscore rows t
      = ((uniqueFirst (rows.map (fun r => r.key))).map
          (fun k2 => groupOutlierCount rows k2 t)).sum
    ∧ groupOutlierCount rows k t = 0 := by
  constructor
  · unfold detect_outliers_zscore groupOutlierCount groupRows
    exact (@sum_filter_partition PriceRow InstrumentKey ℕ _ _
      (fun r => r.key)
      (fun r => if (t : ℝ) < |zscoreOf rows r| then (1 : ℕ) else 0)
      rows (uniqueFirst (rows.map (fun r => r.key)))
      (uniqueFirst_nodup _)
      (fun a ha => mem_uniqueFirst (List.mem_map_of_mem (fun r => r.key) ha))).symm
  · rcases h with hlen | hv
    · have h01 : (groupRows rows k).length = 0 ∨ (groupRows rows k).length = 1 := by
        omega
      rcases h01 with h0 | h1
      · unfold groupOutlierCount
        rw [List.length_eq_zero.mp h0]
        rfl
      · rcases List.length_eq_one.mp h1 with ⟨r, hr⟩
        exact zero_var_no_flag rows k t ht (groupVar_of_single rows k r hr)
    · exact zero_var_no_flag rows k t ht hv

/-- Witness for `claim_C9_outlier_detector` on a single-observation panel
at the default threshold 4.0. -/
theorem claim_C9_outlier_detector_witness :
    detect_outliers_zscore thinPanel 4
      = ((uniqueFirst (thinPanel.map (fun r => r.key))).map
          (fun k2 => groupOutlierCount thinPanel k2 4)).sum
    ∧ groupOutlierCount thinPanel ⟨"Alum", "Jan-2025", "LME"⟩ 4 = 0 :=
  claim_C9_outlier_detector thinPanel 4 ⟨"Alum", "Jan-2025", "LME"⟩
    (by norm_num) (Or.inl (by decide))

end RiskPipeline
